import Mathlib

/-!
# Verification of the vocal rhythm game core

Shallow embedding of the pitch-detection / note-matching core of the
repository (files `GameEngine.ts` and `PitchDetector.ts`), together with
proofs of the specified properties.

Modelling conventions:
* JavaScript numbers are modelled by exact rationals `ℚ` (the quantities
  appearing in the matching and scoring code are small exact values);
  MIDI pitches are integers `ℤ`; note indices are `ℕ`.
* The JS `Set<number>` `activeNotes` preserves insertion order and is
  iterated in that order by `checkPitchMatch`, so it is modelled as a
  `List ℕ`; `hitNotes` is only queried for membership, so it is a
  `Finset ℕ`.
* `this.notes.indexOf(note)` inside the loop over `this.notes` equals the
  loop position, because the parser creates a fresh object per note
  (reference equality); the loop is modelled as iteration over `enum`.
* Listener notification (`notifyStateChange`) and audio I/O have no effect
  on the modelled state and are omitted.
-/

namespace VocalGame

/-- A parsed MIDI note, from `src/types/index.ts` (`MIDINote`).
`velocity` and `name` play no role in the verified logic and are omitted
from the claims; `pitch` is an integer MIDI note number. -/
structure MIDINote where
  pitch : ℤ
  time : ℚ
  duration : ℚ
deriving DecidableEq, Repr

instance : Inhabited MIDINote := ⟨⟨0, 0, 0⟩⟩

/-- The `GameEngine` state: the public `GameState` fields
(`currentSong`, `score`, `combo`, `isPlaying`, `currentTime`, `accuracy`)
together with the private fields that drive matching
(`notes`, `totalNotesHit`, `totalAccuracy`, `activeNotes`, `hitNotes`).
`currentSong` is modelled by the loaded song's id. -/
structure EngineState where
  currentSong : Option String
  score : ℤ
  combo : ℕ
  isPlaying : Bool
  currentTime : ℚ
  accuracy : ℚ
  notes : List MIDINote
  totalNotesHit : ℕ
  totalAccuracy : ℚ
  activeNotes : List ℕ
  hitNotes : Finset ℕ
deriving DecidableEq

/-- `HIT_WINDOW = 0.5` seconds. -/
def HIT_WINDOW : ℚ := 1/2

/-- `PITCH_TOLERANCE = 1` semitone. -/
def PITCH_TOLERANCE : ℤ := 1

/-- `MAX_PITCH_DIFF = PITCH_TOLERANCE + 1`. -/
def MAX_PITCH_DIFF : ℤ := PITCH_TOLERANCE + 1

/-- The state built by the `GameEngine` constructor. -/
def initialState : EngineState where
  currentSong := none
  score := 0
  combo := 0
  isPlaying := false
  currentTime := 0
  accuracy := 0
  notes := []
  totalNotesHit := 0
  totalAccuracy := 0
  activeNotes := []
  hitNotes := ∅

/-- The points awarded by `processNoteHit`:
`Math.floor((baseScore + accuracyBonus) * (1 + comboMultiplier))` with
`baseScore = 100`, `accuracyBonus = Math.floor(accuracy * 50)` and
`comboMultiplier = Math.min(combo / 10, 2)`. -/
def points (accuracy : ℚ) (combo : ℕ) : ℤ :=
  let baseScore : ℚ := 100
  let accuracyBonus : ℤ := ⌊accuracy * 50⌋
  let comboMultiplier : ℚ := min ((combo : ℚ) / 10) 2
  ⌊(baseScore + (accuracyBonus : ℚ)) * (1 + comboMultiplier)⌋

/-- `GameEngine.processNoteHit`: add the points to the score, increment the
combo, and fold the hit's accuracy into the running average. -/
def processNoteHit (accuracy : ℚ) (s : EngineState) : EngineState :=
  { s with
    score := s.score + points accuracy s.combo
    combo := s.combo + 1
    totalNotesHit := s.totalNotesHit + 1
    totalAccuracy := s.totalAccuracy + accuracy
    accuracy := (s.totalAccuracy + accuracy) / ((s.totalNotesHit : ℚ) + 1) }

/-- `GameEngine.processNoteMiss`: reset the combo to 0. -/
def processNoteMiss (s : EngineState) : EngineState :=
  { s with combo := 0 }

/-- `GameEngine.loadSong` (the state mutation on a successful load):
replace the note list, record the song, zero the score/combo/accuracy and
the running-average accumulators, and clear the per-note sets.
`currentTime` and `isPlaying` are not written by `loadSong`. -/
def loadSong (songId : String) (newNotes : List MIDINote) (s : EngineState) :
    EngineState :=
  { s with
    currentSong := some songId
    notes := newNotes
    score := 0
    combo := 0
    accuracy := 0
    totalNotesHit := 0
    totalAccuracy := 0
    activeNotes := []
    hitNotes := ∅ }

/-- `GameEngine.stopGame` (the state mutation): stop playback, reset the
clock and clear the per-note sets. -/
def stopGame (s : EngineState) : EngineState :=
  { s with
    isPlaying := false
    currentTime := 0
    activeNotes := []
    hitNotes := ∅ }

/-- An observable resolution event: a call to `processNoteHit` (tagged with
the loop's note index and the computed accuracy) or a call to
`processNoteMiss` (tagged with the note index that triggered it). -/
inductive NoteEvent
  | hit (index : ℕ) (accuracy : ℚ)
  | miss (index : ℕ)
deriving DecidableEq, Repr

/-- The note index an event resolves. -/
def NoteEvent.index : NoteEvent → ℕ
  | .hit i _ => i
  | .miss i => i

/-- The loop body of `GameEngine.updateActiveNotes`, iterating over the
enumerated note list (`this.notes.indexOf(note)` equals the enumeration
index because note objects are distinct references): skip notes already in
`hitNotes`; add in-window notes to `activeNotes`; transition past-window
unresolved notes to missed (`processNoteMiss` plus marking in `hitNotes`),
emitting one miss event each. -/
def updateLoop (t : ℚ) :
    List (ℕ × MIDINote) → EngineState → EngineState × List NoteEvent
  | [], s => (s, [])
  | (noteIndex, note) :: rest, s =>
    if noteIndex ∈ s.hitNotes then updateLoop t rest s
    else
      let s1 :=
        if |note.time - t| ≤ HIT_WINDOW then
          { s with activeNotes := s.activeNotes ++ [noteIndex] }
        else s
      if note.time < t - HIT_WINDOW ∧ noteIndex ∉ s1.hitNotes then
        let r := updateLoop t rest
          { processNoteMiss s1 with hitNotes := insert noteIndex s1.hitNotes }
        (r.1, NoteEvent.miss noteIndex :: r.2)
      else updateLoop t rest s1

/-- `GameEngine.updateActiveNotes`: clear `activeNotes`, then run the loop
over all notes at the clock value stored in the state. -/
def updateActiveNotes (s : EngineState) : EngineState × List NoteEvent :=
  updateLoop s.currentTime s.notes.enum { s with activeNotes := [] }

/-- The loop body of `GameEngine.checkPitchMatch`, iterating over the
stored `activeNotes` in insertion order: on the first index whose pitch is
within tolerance and which is not yet resolved, compute the accuracy,
process the hit, mark the note, and break. -/
def matchLoop (detectedMidiNote : ℤ) (notes : List MIDINote) :
    List ℕ → EngineState → EngineState × List NoteEvent
  | [], s => (s, [])
  | noteIndex :: rest, s =>
    let note := notes.getD noteIndex default
    let pitchDiff := |note.pitch - detectedMidiNote|
    if pitchDiff ≤ PITCH_TOLERANCE ∧ noteIndex ∉ s.hitNotes then
      let accuracy := 1 - (pitchDiff : ℚ) / (MAX_PITCH_DIFF : ℚ)
      ({ processNoteHit accuracy s with hitNotes := insert noteIndex s.hitNotes },
        [NoteEvent.hit noteIndex accuracy])
    else matchLoop detectedMidiNote notes rest s

/-- `GameEngine.checkPitchMatch`: run the matching loop over the stored
active-note set. -/
def checkPitchMatch (detectedMidiNote : ℤ) (s : EngineState) :
    EngineState × List NoteEvent :=
  matchLoop detectedMidiNote s.notes s.activeNotes s

/-- One playback-clock tick: store the transport clock into `currentTime`
(as the game loop does before calling `updateActiveNotes`), then recompute
the active set and expire passed notes. -/
def playbackTick (t : ℚ) (s : EngineState) : EngineState × List NoteEvent :=
  updateActiveNotes { s with currentTime := t }

/-- The two periodic operations that drive the engine during play: a
playback-clock tick at transport time `t`, and a pitch-sample tick
delivering a quantized note `m`. -/
inductive Op
  | update (t : ℚ)
  | pitch (m : ℤ)

/-- Execute one operation. -/
def stepOp (s : EngineState) : Op → EngineState × List NoteEvent
  | .update t => playbackTick t s
  | .pitch m => checkPitchMatch m s

/-- Execute a sequence of operations, accumulating the emitted events. -/
def run (s : EngineState) : List Op → EngineState × List NoteEvent
  | [] => (s, [])
  | op :: ops =>
    let r1 := stepOp s op
    let r2 := run r1.1 ops
    (r2.1, r1.2 ++ r2.2)

/-- The Boolean test for membership in the recomputed active set: not yet
resolved, and within the hit window of the current time. -/
def isActivePair (hitNotes : Finset ℕ) (t : ℚ) (p : ℕ × MIDINote) : Bool :=
  decide (p.1 ∉ hitNotes ∧ |p.2.time - t| ≤ HIT_WINDOW)

/-- The Boolean test for a note being newly missed: not yet resolved, and
strictly past the hit window. -/
def isMissedPair (hitNotes : Finset ℕ) (t : ℚ) (p : ℕ × MIDINote) : Bool :=
  decide (p.1 ∉ hitNotes ∧ p.2.time < t - HIT_WINDOW)

/-- The Boolean test for a candidate hit in `checkPitchMatch`: pitch within
tolerance of the detected note, and not yet resolved. -/
def isCandidate (detectedMidiNote : ℤ) (notes : List MIDINote)
    (hitNotes : Finset ℕ) (i : ℕ) : Bool :=
  decide (|(notes.getD i default).pitch - detectedMidiNote| ≤ PITCH_TOLERANCE ∧
    i ∉ hitNotes)

/-- The candidate sublist of the stored active set, in iteration order. -/
def candidateList (detectedMidiNote : ℤ) (s : EngineState) : List ℕ :=
  s.activeNotes.filter (isCandidate detectedMidiNote s.notes s.hitNotes)

/-! ## PitchDetector (`PitchDetector.ts`)

The frequency estimator `autoCorrelate` and the quantizer
`frequencyToMidi`. Sample buffers are modelled as `List ℚ`; the no-pitch
sentinel is the return value `-1`, as in the source. -/

/-- The accumulated `rms` value before the square root:
`Σ buffer[i]²`. -/
def sumSquares (buffer : List ℚ) : ℚ := (buffer.map fun x => x * x).sum

/-- The silence check `Math.sqrt(rms / size) < 0.01`, rendered exactly over
`ℚ` by squaring both sides (the radicand `rms / size` is nonnegative, so
the two comparisons are equivalent). -/
def isSilent (buffer : List ℚ) : Prop :=
  sumSquares buffer / (buffer.length : ℚ) < 1/10000

instance (buffer : List ℚ) : Decidable (isSilent buffer) := by
  unfold isSilent; infer_instance

/-- `correlations[lag] = Σ_{i < size - lag} buffer[i] * buffer[i + lag]`. -/
def correlationAt (buffer : List ℚ) (lag : ℕ) : ℚ :=
  ((List.range (buffer.length - lag)).map
    fun i => buffer.getD i 0 * buffer.getD (i + lag) 0).sum

/-- The mutable locals of the peak-scan loop of `autoCorrelate`
(`foundGoodCorrelation`, `bestCorrelation`, `bestOffset`); the source's
`bestOffset = -1` sentinel is modelled as `none`. -/
structure ScanState where
  foundGoodCorrelation : Bool
  bestCorrelation : ℚ
  bestOffset : Option ℕ
deriving DecidableEq, Repr

/-- The peak-scan loop of `autoCorrelate` over the given list of offsets:
flag a good correlation on an ascending edge above 0.9, break at the first
negative correlation after the flag, and track the maximal correlation and
its offset throughout. -/
def scanOffsets (buffer : List ℚ) : List ℕ → ScanState → ScanState
  | [], st => st
  | offset :: rest, st =>
    let correlation := correlationAt buffer offset
    let fg : Bool :=
      if 9/10 < correlation ∧ correlationAt buffer (offset - 1) < correlation then
        true
      else st.foundGoodCorrelation
    if fg = true ∧ correlation < 0 then
      { st with foundGoodCorrelation := fg }
    else if st.bestCorrelation < correlation then
      scanOffsets buffer rest ⟨fg, correlation, some offset⟩
    else
      scanOffsets buffer rest { st with foundGoodCorrelation := fg }

/-- The scan state after running the loop over offsets `1 .. size - 1`
from `foundGoodCorrelation = false`, `bestCorrelation = 0`,
`bestOffset = -1`. -/
def scanResult (buffer : List ℚ) : ScanState :=
  scanOffsets buffer (List.range' 1 (buffer.length - 1)) ⟨false, 0, none⟩

/-- `PitchDetector.autoCorrelate`: return `-1` on a sub-threshold (silent)
buffer; otherwise return `sampleRate / bestOffset` when the scan found an
offset and its best correlation exceeds `0.01`, and `-1` otherwise. -/
def autoCorrelate (buffer : List ℚ) (sampleRate : ℚ) : ℚ :=
  if isSilent buffer then -1
  else
    match (scanResult buffer).bestOffset with
    | some bestOffset =>
      if 1/100 < (scanResult buffer).bestCorrelation then
        sampleRate / (bestOffset : ℚ)
      else -1
    | none => -1

/-- `PitchDetector.frequencyToMidi`:
`Math.round(69 + 12 * Math.log2(frequency / 440))`. -/
noncomputable def frequencyToMidi (frequency : ℝ) : ℤ :=
  round (69 + 12 * Real.logb 2 (frequency / 440))

/-! ## Claims about the scoring operations (C2, C8, C9) -/

/-- C2 counterexample: the claim asserts that a hit with accuracy 1.0 at
combo 0 yields 100 points, but the code awards
`floor((100 + floor(1*50)) * (1 + 0)) = 150` points there: starting from
the initial state (score 0, combo 0), `processNoteHit 1` produces score
150, not 100. -/
theorem processNoteHit_full_accuracy_combo_zero_not_100 :
    initialState.combo = 0 ∧ initialState.score = 0 ∧
    (processNoteHit 1 initialState).score = 150 ∧
    (processNoteHit 1 initialState).score ≠ 100 := by
  refine ⟨rfl, rfl, ?_, ?_⟩ <;>
    norm_num [processNoteHit, initialState, points]

/-- C2 (amended): on every hit with accuracy `a` at combo `c`, the points
awarded equal `floor((100 + floor(a*50)) * (1 + min(c/10, 2)))`, the score
increases by exactly that amount and the combo increases by exactly 1; in
particular a hit with accuracy 1.0 at combo 0 yields 150 points (not 100),
and a hit with accuracy 1.0 at combo 10 yields 300 points. -/
theorem processNoteHit_score_combo (s : EngineState) (a : ℚ) :
    (processNoteHit a s).score =
      s.score + ⌊((100 : ℚ) + (⌊a * 50⌋ : ℚ)) * (1 + min ((s.combo : ℚ) / 10) 2)⌋ ∧
    (processNoteHit a s).combo = s.combo + 1 ∧
    points 1 0 = 150 ∧
    points 1 10 = 300 := by
  exact ⟨rfl, rfl, by norm_num [points], by norm_num [points]⟩

/-- C8 counterexample: loading a song does not reset `currentTime` to 0 nor
`isPlaying` to false. From a state with `currentTime = 5` and
`isPlaying = true`, after `loadSong` the clock still reads 5 and the
engine still reports playing. -/
theorem loadSong_does_not_reset_time_or_playing :
    (loadSong "song-1" [] { initialState with currentTime := 5, isPlaying := true }).currentTime = 5 ∧
    (loadSong "song-1" [] { initialState with currentTime := 5, isPlaying := true }).currentTime ≠ 0 ∧
    (loadSong "song-1" [] { initialState with currentTime := 5, isPlaying := true }).isPlaying = true := by
  refine ⟨rfl, by decide, rfl⟩

/-- C8 (amended): after every successful song load, the score, combo,
accuracy (and its accumulators) are zeroed and all per-note resolution
state is cleared to unresolved; `currentTime` and `isPlaying` are left
unchanged by the load (they are reset by `stopGame`/transport transitions,
not by `loadSong`). -/
theorem loadSong_resets_session (songId : String) (ns : List MIDINote)
    (s : EngineState) :
    (loadSong songId ns s).score = 0 ∧
    (loadSong songId ns s).combo = 0 ∧
    (loadSong songId ns s).accuracy = 0 ∧
    (loadSong songId ns s).totalNotesHit = 0 ∧
    (loadSong songId ns s).totalAccuracy = 0 ∧
    (loadSong songId ns s).activeNotes = [] ∧
    (loadSong songId ns s).hitNotes = ∅ ∧
    (loadSong songId ns s).notes = ns ∧
    (loadSong songId ns s).currentSong = some songId ∧
    (loadSong songId ns s).currentTime = s.currentTime ∧
    (loadSong songId ns s).isPlaying = s.isPlaying :=
  ⟨rfl, rfl, rfl, rfl, rfl, rfl, rfl, rfl, rfl, rfl, rfl⟩

/-- C9: processing a miss sets the combo to 0 and changes nothing else:
score, running-average accuracy and its accumulators, current time,
playing flag, song, note list, and the per-note sets are all unchanged;
in particular the running accuracy average never receives a contribution
from a miss. -/
theorem processNoteMiss_only_resets_combo (s : EngineState) :
    (processNoteMiss s).combo = 0 ∧
    (processNoteMiss s).score = s.score ∧
    (processNoteMiss s).accuracy = s.accuracy ∧
    (processNoteMiss s).totalNotesHit = s.totalNotesHit ∧
    (processNoteMiss s).totalAccuracy = s.totalAccuracy ∧
    (processNoteMiss s).currentTime = s.currentTime ∧
    (processNoteMiss s).isPlaying = s.isPlaying ∧
    (processNoteMiss s).currentSong = s.currentSong ∧
    (processNoteMiss s).notes = s.notes ∧
    (processNoteMiss s).activeNotes = s.activeNotes ∧
    (processNoteMiss s).hitNotes = s.hitNotes :=
  ⟨rfl, rfl, rfl, rfl, rfl, rfl, rfl, rfl, rfl, rfl, rfl⟩

/-! ## Structural lemmas about the update loop -/

/-- A note inside the hit window is not past the hit window. -/
lemma not_missed_of_window {time t : ℚ} (h : |time - t| ≤ HIT_WINDOW) :
    ¬ time < t - HIT_WINDOW := by
  have h' := (abs_le.mp h).1
  intro hlt
  linarith

/-- The update loop never touches the session fields other than the combo,
the active set and the resolution set. -/
lemma updateLoop_fields (t : ℚ) :
    ∀ (P : List (ℕ × MIDINote)) (s : EngineState),
      (updateLoop t P s).1.notes = s.notes ∧
      (updateLoop t P s).1.score = s.score ∧
      (updateLoop t P s).1.accuracy = s.accuracy ∧
      (updateLoop t P s).1.totalNotesHit = s.totalNotesHit ∧
      (updateLoop t P s).1.totalAccuracy = s.totalAccuracy ∧
      (updateLoop t P s).1.currentTime = s.currentTime ∧
      (updateLoop t P s).1.isPlaying = s.isPlaying ∧
      (updateLoop t P s).1.currentSong = s.currentSong := by
  intro P
  induction P with
  | nil => exact fun s => ⟨rfl, rfl, rfl, rfl, rfl, rfl, rfl, rfl⟩
  | cons p rest ih =>
    intro s
    obtain ⟨i, note⟩ := p
    simp only [updateLoop]
    split_ifs with h0 h1 h2 h3 <;> exact ih _

/-- The active set rebuilt by the update loop: the entry value followed by
the indices of the unresolved in-window pairs, in iteration order. -/
lemma updateLoop_activeNotes (t : ℚ) :
    ∀ (P : List (ℕ × MIDINote)) (s : EngineState), (P.map Prod.fst).Nodup →
      (updateLoop t P s).1.activeNotes =
        s.activeNotes ++ (P.filter (isActivePair s.hitNotes t)).map Prod.fst := by
  intro P
  induction P with
  | nil => intro s _; simp [updateLoop]
  | cons p rest ih =>
    intro s hnd
    obtain ⟨i, note⟩ := p
    simp only [List.map_cons, List.nodup_cons] at hnd
    obtain ⟨hi, hnd⟩ := hnd
    have hcong : ∀ (X : Finset ℕ), i ∉ X →
        rest.filter (isActivePair (insert i X) t) =
          rest.filter (isActivePair X t) := by
      intro X _
      refine List.filter_congr fun p hp => ?_
      have : p.1 ≠ i := fun h => hi (h ▸ List.mem_map_of_mem Prod.fst hp)
      simp [isActivePair, Finset.mem_insert, this]
    simp only [updateLoop]
    split_ifs with h0 h1 h2 h3
    · rw [ih s hnd]
      simp [List.filter_cons, isActivePair, h0]
    · exact absurd h2.1 (not_missed_of_window h1)
    · rw [ih _ hnd]
      simp [List.filter_cons, isActivePair, h0, h1, List.append_assoc]
    · rw [ih _ hnd, hcong s.hitNotes h0]
      simp [List.filter_cons, isActivePair, h1, processNoteMiss]
    · rw [ih _ hnd]
      simp [List.filter_cons, isActivePair, h1]

/-- The events emitted by the update loop: one miss event per unresolved
past-window pair, in iteration order. -/
lemma updateLoop_events (t : ℚ) :
    ∀ (P : List (ℕ × MIDINote)) (s : EngineState), (P.map Prod.fst).Nodup →
      (updateLoop t P s).2 =
        (P.filter (isMissedPair s.hitNotes t)).map fun p => NoteEvent.miss p.1 := by
  intro P
  induction P with
  | nil => intro s _; simp [updateLoop]
  | cons p rest ih =>
    intro s hnd
    obtain ⟨i, note⟩ := p
    simp only [List.map_cons, List.nodup_cons] at hnd
    obtain ⟨hi, hnd⟩ := hnd
    have hcong : ∀ (X : Finset ℕ), i ∉ X →
        rest.filter (isMissedPair (insert i X) t) =
          rest.filter (isMissedPair X t) := by
      intro X _
      refine List.filter_congr fun p hp => ?_
      have : p.1 ≠ i := fun h => hi (h ▸ List.mem_map_of_mem Prod.fst hp)
      simp [isMissedPair, Finset.mem_insert, this]
    simp only [updateLoop]
    split_ifs with h0 h1 h2 h3
    · rw [ih s hnd]
      simp [List.filter_cons, isMissedPair, h0]
    · exact absurd h2.1 (not_missed_of_window h1)
    · rw [ih _ hnd]
      have hnm := not_missed_of_window h1
      simp [List.filter_cons, isMissedPair, hnm]
    · rw [ih _ hnd, hcong s.hitNotes h0]
      simp [List.filter_cons, isMissedPair, h0, h3.1]
    · rw [ih _ hnd]
      have : ¬ note.time < t - HIT_WINDOW := fun hc => h3 ⟨hc, h0⟩
      simp [List.filter_cons, isMissedPair, this]

/-- The resolution set after the update loop: the entry value plus the
newly missed indices. -/
lemma updateLoop_hitNotes (t : ℚ) :
    ∀ (P : List (ℕ × MIDINote)) (s : EngineState), (P.map Prod.fst).Nodup →
      (updateLoop t P s).1.hitNotes =
        s.hitNotes ∪ ((P.filter (isMissedPair s.hitNotes t)).map Prod.fst).toFinset := by
  intro P
  induction P with
  | nil => intro s _; simp [updateLoop]
  | cons p rest ih =>
    intro s hnd
    obtain ⟨i, note⟩ := p
    simp only [List.map_cons, List.nodup_cons] at hnd
    obtain ⟨hi, hnd⟩ := hnd
    have hcong : ∀ (X : Finset ℕ), i ∉ X →
        rest.filter (isMissedPair (insert i X) t) =
          rest.filter (isMissedPair X t) := by
      intro X _
      refine List.filter_congr fun p hp => ?_
      have : p.1 ≠ i := fun h => hi (h ▸ List.mem_map_of_mem Prod.fst hp)
      simp [isMissedPair, Finset.mem_insert, this]
    simp only [updateLoop]
    split_ifs with h0 h1 h2 h3
    · rw [ih s hnd]
      simp [List.filter_cons, isMissedPair, h0]
    · exact absurd h2.1 (not_missed_of_window h1)
    · rw [ih _ hnd]
      have hnm := not_missed_of_window h1
      simp [List.filter_cons, isMissedPair, hnm]
    · rw [ih _ hnd, hcong s.hitNotes h0]
      simp only [List.filter_cons, isMissedPair]
      simp [h0, h3.1, Finset.union_insert, Finset.insert_union]
    · rw [ih _ hnd]
      have : ¬ note.time < t - HIT_WINDOW := fun hc => h3 ⟨hc, h0⟩
      simp [List.filter_cons, isMissedPair, this]

/-! ## Structural lemmas about the matching loop -/

/-- When no index in the iterated list is a candidate, the matching loop
returns the state unchanged and emits nothing. -/
lemma matchLoop_eq_nil (m : ℤ) (notes : List MIDINote) :
    ∀ (L : List ℕ) (s : EngineState),
      L.filter (isCandidate m notes s.hitNotes) = [] →
      matchLoop m notes L s = (s, []) := by
  intro L
  induction L with
  | nil => intro s _; rfl
  | cons j rest ih =>
    intro s hf
    simp only [List.filter_cons] at hf
    by_cases hc : isCandidate m notes s.hitNotes j = true
    · simp [hc] at hf
    · have hc' : ¬ (|(notes.getD j default).pitch - m| ≤ PITCH_TOLERANCE ∧
          j ∉ s.hitNotes) := by simpa [isCandidate] using hc
      simp only [matchLoop]
      rw [if_neg hc']
      exact ih s (by simpa [hc] using hf)

/-- The matching loop resolves exactly the first candidate in iteration
order: it processes the hit with accuracy `1 - pitchDiff / MAX_PITCH_DIFF`,
marks the note, emits one hit event, and stops. -/
lemma matchLoop_eq_cons (m : ℤ) (notes : List MIDINote) :
    ∀ (L : List ℕ) (s : EngineState) (i : ℕ) (r : List ℕ),
      L.filter (isCandidate m notes s.hitNotes) = i :: r →
      matchLoop m notes L s =
        ({ processNoteHit
            (1 - ((|(notes.getD i default).pitch - m| : ℤ) : ℚ) / (MAX_PITCH_DIFF : ℚ)) s
            with hitNotes := insert i s.hitNotes },
          [NoteEvent.hit i
            (1 - ((|(notes.getD i default).pitch - m| : ℤ) : ℚ) / (MAX_PITCH_DIFF : ℚ))]) := by
  intro L
  induction L with
  | nil => intro s i r hf; simp at hf
  | cons j rest ih =>
    intro s i r hf
    simp only [List.filter_cons] at hf
    by_cases hc : isCandidate m notes s.hitNotes j = true
    · rw [if_pos hc] at hf
      obtain ⟨rfl, -⟩ := List.cons_eq_cons.mp hf
      have hc' : |(notes.getD j default).pitch - m| ≤ PITCH_TOLERANCE ∧
          j ∉ s.hitNotes := by simpa [isCandidate] using hc
      simp only [matchLoop]
      rw [if_pos hc']
    · rw [if_neg hc] at hf
      have hc' : ¬ (|(notes.getD j default).pitch - m| ≤ PITCH_TOLERANCE ∧
          j ∉ s.hitNotes) := by simpa [isCandidate] using hc
      simp only [matchLoop]
      rw [if_neg hc']
      exact ih s i r hf

/-! ## Resolution is monotone and at-most-once -/

/-- Counting events for note `i` among emitted misses counts the pairs
with first component `i`. -/
lemma countP_miss_map (l : List (ℕ × MIDINote)) (i : ℕ) :
    ((l.map fun p => NoteEvent.miss p.1).countP fun e => e.index == i) =
      (l.map Prod.fst).count i := by
  rw [List.countP_map, List.count_eq_countP, List.countP_map]
  rfl

/-- Per-operation facts about note resolution: the resolved set only
grows, each operation emits at most one event per note index, never for an
already-resolved note, and an emitted event marks its note resolved. -/
lemma stepOp_resolution (s : EngineState) (op : Op) (i : ℕ) :
    s.hitNotes ⊆ (stepOp s op).1.hitNotes ∧
    ((stepOp s op).2.countP fun e => e.index == i) ≤ 1 ∧
    (i ∈ s.hitNotes → ((stepOp s op).2.countP fun e => e.index == i) = 0) ∧
    (0 < ((stepOp s op).2.countP fun e => e.index == i) →
      i ∈ (stepOp s op).1.hitNotes) := by
  cases op with
  | update t =>
    have hnd : ((s.notes.enum).map Prod.fst).Nodup := by
      simp [List.nodup_range]
    have hev := updateLoop_events t s.notes.enum
      { { s with currentTime := t } with activeNotes := [] } hnd
    have hhn := updateLoop_hitNotes t s.notes.enum
      { { s with currentTime := t } with activeNotes := [] } hnd
    have hstep : stepOp s (Op.update t) =
        updateLoop t s.notes.enum
          { { s with currentTime := t } with activeNotes := [] } := rfl
    rw [hstep, hev, hhn]
    have hcnt : ∀ (l : List (ℕ × MIDINote)),
        ((l.map fun p => NoteEvent.miss p.1).countP fun e => e.index == i) =
          (l.map Prod.fst).count i := fun l => countP_miss_map l i
    refine ⟨Finset.subset_union_left, ?_, ?_, ?_⟩
    · rw [hcnt]
      calc ((s.notes.enum.filter _).map Prod.fst).count i ≤
            (s.notes.enum.map Prod.fst).count i :=
              ((List.filter_sublist _).map Prod.fst).count_le i
        _ ≤ 1 := List.nodup_iff_count_le_one.mp hnd i
    · intro hi
      rw [hcnt, List.count_eq_countP, List.countP_map, List.countP_eq_zero]
      rintro ⟨j, n⟩ hp hji
      have h2 := (List.mem_filter.mp hp).2
      have hj : j ∉ s.hitNotes ∧ n.time < t - HIT_WINDOW := by
        simpa [isMissedPair] using h2
      have hji' : j = i := by simpa using hji
      exact hj.1 (hji' ▸ hi)
    · intro hpos
      rw [hcnt] at hpos
      have hi : i ∈ (s.notes.enum.filter
          (isMissedPair s.hitNotes t)).map Prod.fst := by
        exact List.count_pos_iff.mp hpos
      exact Finset.mem_union_right _ (List.mem_toFinset.mpr hi)
  | pitch m =>
    have hstep : stepOp s (Op.pitch m) =
        matchLoop m s.notes s.activeNotes s := rfl
    cases hf : s.activeNotes.filter (isCandidate m s.notes s.hitNotes) with
    | nil =>
      rw [hstep, matchLoop_eq_nil m s.notes s.activeNotes s hf]
      exact ⟨Finset.Subset.refl _, by simp, fun _ => by simp, by simp⟩
    | cons j r =>
      rw [hstep, matchLoop_eq_cons m s.notes s.activeNotes s j r hf]
      have hj : j ∉ s.hitNotes := by
        have hmem : j ∈ s.activeNotes.filter
            (isCandidate m s.notes s.hitNotes) := by
          rw [hf]; exact List.mem_cons_self _ _
        have h2 := (List.mem_filter.mp hmem).2
        have hj' : |(s.notes.getD j default).pitch - m| ≤ PITCH_TOLERANCE ∧
            j ∉ s.hitNotes := by simpa [isCandidate] using h2
        exact hj'.2
      refine ⟨Finset.subset_insert _ _, by
          simp only [List.countP_cons, List.countP_nil]
          split <;> omega, ?_, ?_⟩
      · intro hi
        have hne : j ≠ i := fun h => hj (h ▸ hi)
        simp [List.countP_cons, NoteEvent.index, hne]
      · intro hpos
        by_cases hji : j = i
        · subst hji
          simp [Finset.mem_insert]
        · simp [List.countP_cons, NoteEvent.index, hji] at hpos

/-- Across any sequence of operations, a note contributes no resolution
event once resolved, and at most one overall; resolution persists. -/
lemma run_resolution (i : ℕ) :
    ∀ (ops : List Op) (s : EngineState),
      ((run s ops).2.countP fun e => e.index == i) ≤
        (if i ∈ s.hitNotes then 0 else 1) ∧
      (i ∈ s.hitNotes → i ∈ (run s ops).1.hitNotes) := by
  intro ops
  induction ops with
  | nil => intro s; constructor
           · simp [run]
           · intro hi; simpa [run] using hi
  | cons op rest ih =>
    intro s
    obtain ⟨hsub, hle, hzero, hpos⟩ := stepOp_resolution s op i
    obtain ⟨ihle, ihmem⟩ := ih (stepOp s op).1
    have hsplit : (run s (op :: rest)).2 =
        (stepOp s op).2 ++ (run (stepOp s op).1 rest).2 := rfl
    have hstate : (run s (op :: rest)).1 = (run (stepOp s op).1 rest).1 := rfl
    constructor
    · rw [hsplit, List.countP_append]
      by_cases hi : i ∈ s.hitNotes
      · have h1 := hzero hi
        have h2 : ((run (stepOp s op).1 rest).2.countP fun e => e.index == i) = 0 := by
          have := ihle
          rw [if_pos (hsub hi)] at this
          omega
        simp [hi, h1, h2]
      · rw [if_neg hi]
        by_cases hc : 0 < ((stepOp s op).2.countP fun e => e.index == i)
        · have h2 : ((run (stepOp s op).1 rest).2.countP fun e => e.index == i) = 0 := by
            have := ihle
            rw [if_pos (hpos hc)] at this
            omega
          omega
        · have h2 : ((run (stepOp s op).1 rest).2.countP fun e => e.index == i) ≤ 1 := by
            have := ihle
            split at this <;> omega
          omega
    · intro hi
      rw [hstate]
      exact ihmem (hsub hi)

/-! ## Claims about the pitch detector (C6, C7) -/

/-- Any offset recorded as `bestOffset` by the scan loop was either already
recorded on entry or is one of the scanned offsets. -/
lemma scanOffsets_bestOffset_mem (buffer : List ℚ) :
    ∀ (L : List ℕ) (st : ScanState) (o : ℕ),
      (scanOffsets buffer L st).bestOffset = some o →
      st.bestOffset = some o ∨ o ∈ L := by
  intro L
  induction L with
  | nil => intro st o h; exact Or.inl h
  | cons offset rest ih =>
    intro st o h
    rw [scanOffsets] at h
    split_ifs at h
    all_goals
      first
      | exact Or.inl h
      | (rcases ih _ _ h with h' | h'
         · first
           | exact Or.inl h'
           | (obtain rfl : offset = o := by simpa using h'
              exact Or.inr (List.mem_cons_self _ _))
         · exact Or.inr (List.mem_cons_of_mem _ h'))

/-- A `bestOffset` produced by the full scan is at least 1: lag 0 is
excluded from the scan. -/
lemma scanResult_bestOffset_pos (buffer : List ℚ) (o : ℕ)
    (h : (scanResult buffer).bestOffset = some o) : 1 ≤ o := by
  rcases scanOffsets_bestOffset_mem buffer _ _ _ h with h' | h'
  · exact absurd h' (by simp)
  · exact (List.mem_range'_1.mp h').1

/-- C6: the frequency estimator is total and never returns 0 or a negative
frequency (other than the `-1` no-pitch sentinel): for any buffer and any
positive sample rate, (a) the result is the sentinel or strictly positive,
(b) a sub-silence-threshold buffer yields the sentinel, and (c) on a
non-silent buffer the result is `sampleRate / bestOffset` exactly when the
scan found an offset whose best correlation exceeds 0.01, and the sentinel
otherwise. The embedding is a total function, so no error is ever raised. -/
theorem autoCorrelate_total_spec (buffer : List ℚ) (sampleRate : ℚ)
    (hsr : 0 < sampleRate) :
    (autoCorrelate buffer sampleRate = -1 ∨
      0 < autoCorrelate buffer sampleRate) ∧
    (isSilent buffer → autoCorrelate buffer sampleRate = -1) ∧
    (¬ isSilent buffer →
      ∀ (o : ℕ), (scanResult buffer).bestOffset = some o →
        (1/100 < (scanResult buffer).bestCorrelation →
          autoCorrelate buffer sampleRate = sampleRate / (o : ℚ) ∧
          0 < autoCorrelate buffer sampleRate) ∧
        (¬ 1/100 < (scanResult buffer).bestCorrelation →
          autoCorrelate buffer sampleRate = -1)) ∧
    (¬ isSilent buffer → (scanResult buffer).bestOffset = none →
      autoCorrelate buffer sampleRate = -1) := by
  have hpos : ∀ (o : ℕ), (scanResult buffer).bestOffset = some o →
      ¬ isSilent buffer → 1/100 < (scanResult buffer).bestCorrelation →
      autoCorrelate buffer sampleRate = sampleRate / (o : ℚ) ∧
      0 < autoCorrelate buffer sampleRate := by
    intro o ho hsil hbc
    have h1 : (1 : ℕ) ≤ o := scanResult_bestOffset_pos buffer o ho
    have hoq : (0 : ℚ) < (o : ℚ) := by exact_mod_cast h1
    have heq : autoCorrelate buffer sampleRate = sampleRate / (o : ℚ) := by
      simp only [autoCorrelate, if_neg hsil, ho, if_pos hbc]
    exact ⟨heq, heq ▸ div_pos hsr hoq⟩
  refine ⟨?_, ?_, ?_, ?_⟩
  · by_cases hsil : isSilent buffer
    · exact Or.inl (by simp only [autoCorrelate, if_pos hsil])
    · cases ho : (scanResult buffer).bestOffset with
      | none => exact Or.inl (by simp only [autoCorrelate, if_neg hsil, ho])
      | some o =>
        by_cases hbc : 1/100 < (scanResult buffer).bestCorrelation
        · exact Or.inr (hpos o ho hsil hbc).2
        · exact Or.inl (by simp only [autoCorrelate, if_neg hsil, ho, if_neg hbc])
  · intro hsil; simp only [autoCorrelate, if_pos hsil]
  · intro hsil o ho
    refine ⟨fun hbc => hpos o ho hsil hbc, fun hbc => ?_⟩
    simp only [autoCorrelate, if_neg hsil, ho, if_neg hbc]
  · intro hsil ho
    simp only [autoCorrelate, if_neg hsil, ho]

/-- C6 witness: a concrete non-silent alternating buffer at sample rate 8
instantiates the estimator contract; the contract's alternative is closed
by evaluation (the estimator returns 4, which is positive). -/
theorem autoCorrelate_total_spec_witness :
    ((autoCorrelate [1, -1, 1, -1] 8 = -1 ∨ 0 < autoCorrelate [1, -1, 1, -1] 8) ∧
      autoCorrelate [1, -1, 1, -1] 8 = 4) ∧
    (autoCorrelate [] 8 = -1 ∧ isSilent []) := by
  have h := autoCorrelate_total_spec [1, -1, 1, -1] 8 (by norm_num)
  have h2 := autoCorrelate_total_spec ([] : List ℚ) 8 (by norm_num)
  have hsil : isSilent ([] : List ℚ) := by norm_num [isSilent, sumSquares]
  refine ⟨⟨h.1, ?_⟩, h2.2.1 hsil, hsil⟩
  norm_num [autoCorrelate, isSilent, sumSquares, scanResult, scanOffsets,
    correlationAt, List.range', List.range_succ]

/-- C7: the note quantizer is the pure total function
`round(69 + 12 * log2(f / 440))`; in particular it maps 440 Hz to note 69,
one equal-tempered semitone above 440 Hz to note 70, and 220 Hz to
note 57. -/
theorem frequencyToMidi_spec :
    (∀ f : ℝ, frequencyToMidi f = round (69 + 12 * Real.logb 2 (f / 440))) ∧
    frequencyToMidi 440 = 69 ∧
    frequencyToMidi (440 * 2 ^ ((1 : ℝ)/12)) = 70 ∧
    frequencyToMidi 220 = 57 := by
  refine ⟨fun f => rfl, ?_, ?_, ?_⟩
  · unfold frequencyToMidi
    norm_num [Real.logb_one]
  · unfold frequencyToMidi
    rw [mul_div_cancel_left₀ _ (by norm_num : (440 : ℝ) ≠ 0),
      Real.logb_rpow (by norm_num : (0:ℝ) < 2) (by norm_num : (2:ℝ) ≠ 1)]
    norm_num
  · unfold frequencyToMidi
    rw [show (220 : ℝ)/440 = 2⁻¹ by norm_num, Real.logb_inv,
      Real.logb_self_eq_one (by norm_num : (1:ℝ) < 2)]
    norm_num

/-! ## Derived facts about a playback tick -/

/-- A playback tick keeps the note list. -/
lemma playbackTick_notes (s : EngineState) (t : ℚ) :
    (playbackTick t s).1.notes = s.notes := by
  have h := (updateLoop_fields t s.notes.enum
    { { s with currentTime := t } with activeNotes := [] }).1
  exact h

/-- The rebuilt active set of a playback tick, as a list expression. -/
lemma playbackTick_activeNotes_eq (s : EngineState) (t : ℚ) :
    (playbackTick t s).1.activeNotes =
      (s.notes.enum.filter (isActivePair s.hitNotes t)).map Prod.fst := by
  have hnd : ((s.notes.enum).map Prod.fst).Nodup := by
    simp [List.nodup_range]
  have hact := updateLoop_activeNotes t s.notes.enum
    { { s with currentTime := t } with activeNotes := [] } hnd
  simpa using hact

/-- Membership in the active set rebuilt by a playback tick at time `t`:
exactly the unresolved notes within the hit window of `t`. -/
lemma playbackTick_activeNotes_mem (s : EngineState) (t : ℚ) (i : ℕ) :
    i ∈ (playbackTick t s).1.activeNotes ↔
      ∃ n, s.notes[i]? = some n ∧ i ∉ s.hitNotes ∧
        |n.time - t| ≤ HIT_WINDOW := by
  rw [playbackTick_activeNotes_eq]
  constructor
  · intro hm
    obtain ⟨⟨j, n⟩, hmem, rfl⟩ := List.mem_map.mp hm
    obtain ⟨hP, hcond⟩ := List.mem_filter.mp hmem
    have hc : j ∉ s.hitNotes ∧ |n.time - t| ≤ HIT_WINDOW := by
      simpa [isActivePair] using hcond
    exact ⟨n, List.mk_mem_enum_iff_getElem?.mp hP, hc.1, hc.2⟩
  · rintro ⟨n, hg, hhit, hwin⟩
    refine List.mem_map.mpr ⟨(i, n), List.mem_filter.mpr
      ⟨List.mk_mem_enum_iff_getElem?.mpr hg, ?_⟩, rfl⟩
    simp [isActivePair, hhit, hwin]

/-- Membership in the resolved set after a playback tick: already resolved
before, or newly missed (unresolved and strictly past the window). -/
lemma playbackTick_hitNotes_mem (s : EngineState) (t : ℚ) (i : ℕ) :
    i ∈ (playbackTick t s).1.hitNotes ↔
      i ∈ s.hitNotes ∨ ∃ n, s.notes[i]? = some n ∧ i ∉ s.hitNotes ∧
        n.time < t - HIT_WINDOW := by
  have hnd : ((s.notes.enum).map Prod.fst).Nodup := by
    simp [List.nodup_range]
  have hhn := updateLoop_hitNotes t s.notes.enum
    { { s with currentTime := t } with activeNotes := [] } hnd
  have hstep : (playbackTick t s).1 =
      (updateLoop t s.notes.enum
        { { s with currentTime := t } with activeNotes := [] }).1 := rfl
  rw [hstep, hhn]
  simp only [Finset.mem_union, List.mem_toFinset]
  constructor
  · rintro (h | h)
    · exact Or.inl h
    · obtain ⟨⟨j, n⟩, hmem, rfl⟩ := List.mem_map.mp h
      obtain ⟨hP, hcond⟩ := List.mem_filter.mp hmem
      have hc : j ∉ s.hitNotes ∧ n.time < t - HIT_WINDOW := by
        simpa [isMissedPair] using hcond
      exact Or.inr ⟨n, List.mk_mem_enum_iff_getElem?.mp hP, hc.1, hc.2⟩
  · rintro (h | ⟨n, hg, hhit, hlate⟩)
    · exact Or.inl h
    · refine Or.inr (List.mem_map.mpr ⟨(i, n), List.mem_filter.mpr
        ⟨List.mk_mem_enum_iff_getElem?.mpr hg, ?_⟩, rfl⟩)
      simp [isMissedPair, hhit, hlate]

/-- The rebuilt active set is strictly increasing in note index (it is
collected by a single pass over the enumerated note list). -/
lemma playbackTick_activeNotes_sorted (s : EngineState) (t : ℚ) :
    List.Sorted (· < ·) (playbackTick t s).1.activeNotes := by
  rw [playbackTick_activeNotes_eq]
  have hsub : List.Sublist
      ((s.notes.enum.filter (isActivePair s.hitNotes t)).map Prod.fst)
      (s.notes.enum.map Prod.fst) :=
    (List.filter_sublist _).map Prod.fst
  have hsorted : List.Sorted (· < ·) (s.notes.enum.map Prod.fst) := by
    rw [List.enum_map_fst]
    exact List.sorted_lt_range _
  exact List.Pairwise.sublist hsub hsorted

/-! ## Claims about the note timeline (C3, C4, C5) -/

/-- C4: from a freshly loaded song, over any sequence of playback and
pitch ticks, each note index contributes at most one resolution event
(hit or miss) in total; moreover, from any state in which a note is
already resolved, no operation sequence ever emits another event for it,
and the note stays resolved. -/
theorem note_resolved_at_most_once (songId : String) (ns : List MIDINote)
    (s0 : EngineState) (ops : List Op) (i : ℕ) :
    ((run (loadSong songId ns s0) ops).2.countP fun e => e.index == i) ≤ 1 ∧
    ∀ (s : EngineState), i ∈ s.hitNotes →
      ((run s ops).2.countP fun e => e.index == i) = 0 ∧
      i ∈ (run s ops).1.hitNotes := by
  constructor
  · have h := (run_resolution i ops (loadSong songId ns s0)).1
    have hni : i ∉ (loadSong songId ns s0).hitNotes := by simp [loadSong]
    rwa [if_neg hni] at h
  · intro s hi
    have h := (run_resolution i ops s).1
    rw [if_pos hi] at h
    exact ⟨Nat.le_zero.mp h, (run_resolution i ops s).2 hi⟩

/-- C4 witness: a two-tick run on a one-note song (the note expires) obeys
the at-most-once bound, and a run started with note 0 already resolved
emits nothing for it. -/
theorem note_resolved_at_most_once_witness :
    ((run (loadSong "song-1" [⟨60, 1, 1⟩] initialState)
        [Op.update 3, Op.update 4]).2.countP fun e => e.index == 0) ≤ 1 ∧
    ((run { initialState with hitNotes := {0} }
        [Op.update 3, Op.update 4]).2.countP fun e => e.index == 0) = 0 ∧
    (run (loadSong "song-1" [⟨60, 1, 1⟩] initialState)
        [Op.update 3, Op.update 4]).2 = [NoteEvent.miss 0] := by
  obtain ⟨h1, h2⟩ := note_resolved_at_most_once "song-1" [⟨60, 1, 1⟩]
    initialState [Op.update 3, Op.update 4] 0
  refine ⟨h1, (h2 _ (by simp)).1, ?_⟩
  norm_num [run, stepOp, playbackTick, updateActiveNotes, updateLoop,
    loadSong, initialState, processNoteMiss, HIT_WINDOW, List.enum,
    List.enumFrom, abs_le]

/-- C3 (amended): a loaded note with onset `T` that is still unresolved
transitions to missed — with exactly one miss event — on the first
playback tick whose time satisfies `T + HIT_WINDOW < currentTime`
(strictly; at `currentTime = T + HIT_WINDOW` it is not yet missed), and a
note already resolved is never transitioned or reported again. -/
theorem expiry_first_tick_only (s : EngineState) (t : ℚ) (i : ℕ)
    (n : MIDINote) (hn : s.notes[i]? = some n) :
    (i ∉ s.hitNotes → n.time + HIT_WINDOW < t →
      ((playbackTick t s).2.countP fun e => e.index == i) = 1 ∧
      i ∈ (playbackTick t s).1.hitNotes) ∧
    (i ∉ s.hitNotes → ¬ n.time + HIT_WINDOW < t →
      ((playbackTick t s).2.countP fun e => e.index == i) = 0 ∧
      i ∉ (playbackTick t s).1.hitNotes) ∧
    (i ∈ s.hitNotes →
      ((playbackTick t s).2.countP fun e => e.index == i) = 0 ∧
      i ∈ (playbackTick t s).1.hitNotes) := by
  have hnd : ((s.notes.enum).map Prod.fst).Nodup := by
    simp [List.nodup_range]
  have hev := updateLoop_events t s.notes.enum
    { { s with currentTime := t } with activeNotes := [] } hnd
  have hhn := updateLoop_hitNotes t s.notes.enum
    { { s with currentTime := t } with activeNotes := [] } hnd
  have hstep1 : (playbackTick t s).2 =
      (updateLoop t s.notes.enum
        { { s with currentTime := t } with activeNotes := [] }).2 := rfl
  have hstep2 : (playbackTick t s).1 =
      (updateLoop t s.notes.enum
        { { s with currentTime := t } with activeNotes := [] }).1 := rfl
  rw [hstep1, hstep2, hev, hhn, countP_miss_map]
  have hiP : (i, n) ∈ s.notes.enum := List.mk_mem_enum_iff_getElem?.mpr hn
  have hfun : ∀ (n' : MIDINote), (i, n') ∈ s.notes.enum → n' = n := by
    intro n' h
    have := List.mk_mem_enum_iff_getElem?.mp h
    rw [hn] at this
    exact (Option.some.inj this).symm
  refine ⟨?_, ?_, ?_⟩
  · intro hhit hlate
    have hq : isMissedPair s.hitNotes t (i, n) = true := by
      simp only [isMissedPair, decide_eq_true_eq]
      exact ⟨hhit, by linarith⟩
    have hmem : i ∈ (s.notes.enum.filter
        (isMissedPair s.hitNotes t)).map Prod.fst :=
      List.mem_map.mpr ⟨(i, n), List.mem_filter.mpr ⟨hiP, hq⟩, rfl⟩
    have hndF : ((s.notes.enum.filter
        (isMissedPair s.hitNotes t)).map Prod.fst).Nodup :=
      hnd.sublist ((List.filter_sublist _).map Prod.fst)
    exact ⟨List.count_eq_one_of_mem hndF hmem,
      Finset.mem_union_right _ (List.mem_toFinset.mpr hmem)⟩
  · intro hhit hearly
    have hnotmem : i ∉ (s.notes.enum.filter
        (isMissedPair s.hitNotes t)).map Prod.fst := by
      intro hmem
      obtain ⟨⟨j, n'⟩, hjm, hj⟩ := List.mem_map.mp hmem
      obtain ⟨hjP, hjq⟩ := List.mem_filter.mp hjm
      have hji : j = i := hj
      have hq : j ∉ s.hitNotes ∧ n'.time < t - HIT_WINDOW := by
        simpa [isMissedPair] using hjq
      have hne : n' = n := hfun n' (hji ▸ hjP)
      have hlt : n.time < t - HIT_WINDOW := hne ▸ hq.2
      exact hearly (by linarith)
    refine ⟨List.count_eq_zero.mpr hnotmem, ?_⟩
    simp only [Finset.mem_union, List.mem_toFinset]
    rintro (h | h)
    · exact hhit h
    · exact hnotmem h
  · intro hhit
    have hnotmem : i ∉ (s.notes.enum.filter
        (isMissedPair s.hitNotes t)).map Prod.fst := by
      intro hmem
      obtain ⟨⟨j, n'⟩, hjm, hj⟩ := List.mem_map.mp hmem
      obtain ⟨hjP, hjq⟩ := List.mem_filter.mp hjm
      have hji : j = i := hj
      have hq : j ∉ s.hitNotes ∧ n'.time < t - HIT_WINDOW := by
        simpa [isMissedPair] using hjq
      exact hq.1 (hji ▸ hhit)
    exact ⟨List.count_eq_zero.mpr hnotmem, Finset.mem_union_left _ hhit⟩

/-- C3 counterexample: the claim's trigger `currentTime ≥ T + w` is too
weak. With note onset 1.0 and hit window 0.5, a playback tick at
`currentTime = 1.5 = T + w` (which satisfies `≥`) emits no miss and
leaves the note unresolved — it is in fact still inside the hit window
there; the code misses a note only when `currentTime > T + w` strictly. -/
theorem expiry_not_at_boundary :
    (1 : ℚ) + HIT_WINDOW ≤ 3/2 ∧
    (playbackTick (3/2) (loadSong "song-1" [⟨60, 1, 1⟩] initialState)).2 = [] ∧
    0 ∉ (playbackTick (3/2)
      (loadSong "song-1" [⟨60, 1, 1⟩] initialState)).1.hitNotes ∧
    0 ∈ (playbackTick (3/2)
      (loadSong "song-1" [⟨60, 1, 1⟩] initialState)).1.activeNotes := by
  refine ⟨by norm_num [HIT_WINDOW], ?_, ?_, ?_⟩ <;>
    norm_num [playbackTick, updateActiveNotes, updateLoop, loadSong,
      initialState, processNoteMiss, HIT_WINDOW, List.enum, List.enumFrom,
      abs_le]

/-- C3 witness: note onset 1.0, window 0.5, never hit: the first tick past
the window (time 2) transitions it to missed with exactly one miss
event. -/
theorem expiry_first_tick_only_witness :
    ((playbackTick 2 (loadSong "song-1" [⟨60, 1, 1⟩] initialState)).2.countP
      fun e => e.index == 0) = 1 ∧
    0 ∈ (playbackTick 2
      (loadSong "song-1" [⟨60, 1, 1⟩] initialState)).1.hitNotes :=
  (expiry_first_tick_only (loadSong "song-1" [⟨60, 1, 1⟩] initialState)
    2 0 ⟨60, 1, 1⟩ rfl).1 (by simp [loadSong]) (by norm_num [HIT_WINDOW])

/-- C5: after a playback tick at time `t`, the recomputed active set holds
exactly the indices of unresolved notes within the hit window of `t`; in
particular, with notes at onsets 1.0 and 1.2 loaded, a tick at time 1.0
activates both indices, and a tick at time 2.0 activates neither. -/
theorem activeNotes_characterization (s : EngineState) (t : ℚ) :
    (∀ i : ℕ, i ∈ (playbackTick t s).1.activeNotes ↔
      ∃ n, s.notes[i]? = some n ∧ i ∉ s.hitNotes ∧
        |n.time - t| ≤ HIT_WINDOW) ∧
    (playbackTick 1 (loadSong "song-1" [⟨60, 1, 1⟩, ⟨64, 6/5, 1⟩]
        initialState)).1.activeNotes = [0, 1] ∧
    (playbackTick 2 (loadSong "song-1" [⟨60, 1, 1⟩, ⟨64, 6/5, 1⟩]
        initialState)).1.activeNotes = [] := by
  refine ⟨playbackTick_activeNotes_mem s t, ?_, ?_⟩
  · norm_num [playbackTick, updateActiveNotes, updateLoop, loadSong,
      initialState, processNoteMiss, HIT_WINDOW, List.enum, List.enumFrom,
      abs_le]
  · norm_num [playbackTick, updateActiveNotes, updateLoop, loadSong,
      initialState, processNoteMiss, HIT_WINDOW, List.enum, List.enumFrom,
      abs_le]

/-! ## Claim about the matching engine (C1) -/

/-- C1: for a pitch sample processed against the freshly recomputed active
set: (a) an index is a candidate hit exactly when its note is unresolved,
time-eligible and within one semitone of the quantized note; (b) with no
candidate, `checkPitchMatch` changes nothing and emits nothing; (c) with
candidates, it resolves exactly the first one in iteration order — the
candidate with the lowest index — recording accuracy
`1 - pitchDiff / MAX_PITCH_DIFF` and emitting exactly one hit event; and
(d) when the notes are sorted by onset time, that first candidate has the
lowest timeline position among all candidates. -/
theorem pitch_sample_resolves_first_candidate (s : EngineState) (t : ℚ)
    (m : ℤ) :
    (∀ i : ℕ, i ∈ candidateList m (playbackTick t s).1 ↔
      ∃ n, s.notes[i]? = some n ∧ i ∉ s.hitNotes ∧
        |n.time - t| ≤ HIT_WINDOW ∧ |n.pitch - m| ≤ PITCH_TOLERANCE) ∧
    (candidateList m (playbackTick t s).1 = [] →
      checkPitchMatch m (playbackTick t s).1 = ((playbackTick t s).1, [])) ∧
    (∀ i r, candidateList m (playbackTick t s).1 = i :: r →
      checkPitchMatch m (playbackTick t s).1 =
        ({ processNoteHit
            (1 - ((|((playbackTick t s).1.notes.getD i default).pitch - m| : ℤ) : ℚ) /
              (MAX_PITCH_DIFF : ℚ)) (playbackTick t s).1
            with hitNotes := insert i (playbackTick t s).1.hitNotes },
          [NoteEvent.hit i
            (1 - ((|((playbackTick t s).1.notes.getD i default).pitch - m| : ℤ) : ℚ) /
              (MAX_PITCH_DIFF : ℚ))]) ∧
      ∀ j ∈ candidateList m (playbackTick t s).1, i ≤ j) ∧
    (List.Sorted (fun a b : MIDINote => a.time ≤ b.time) s.notes →
      ∀ i r, candidateList m (playbackTick t s).1 = i :: r →
      ∀ j ∈ candidateList m (playbackTick t s).1,
        (s.notes.getD i default).time ≤ (s.notes.getD j default).time) := by
  have hmemchar : ∀ i : ℕ, i ∈ candidateList m (playbackTick t s).1 ↔
      ∃ n, s.notes[i]? = some n ∧ i ∉ s.hitNotes ∧
        |n.time - t| ≤ HIT_WINDOW ∧ |n.pitch - m| ≤ PITCH_TOLERANCE := by
    intro i
    unfold candidateList
    rw [List.mem_filter]
    constructor
    · rintro ⟨hact, hcond⟩
      obtain ⟨n, hg, hhit, hwin⟩ := (playbackTick_activeNotes_mem s t i).mp hact
      have hc : |((playbackTick t s).1.notes.getD i default).pitch - m| ≤
          PITCH_TOLERANCE ∧ i ∉ (playbackTick t s).1.hitNotes := by
        simpa [isCandidate] using hcond
      have hgd : (playbackTick t s).1.notes.getD i default = n := by
        rw [playbackTick_notes]
        simp [hg]
      rw [hgd] at hc
      exact ⟨n, hg, hhit, hwin, hc.1⟩
    · rintro ⟨n, hg, hhit, hwin, hpitch⟩
      refine ⟨(playbackTick_activeNotes_mem s t i).mpr ⟨n, hg, hhit, hwin⟩, ?_⟩
      have hgq : (playbackTick t s).1.notes[i]? = some n := by
        rw [playbackTick_notes]
        exact hg
      have hnres : i ∉ (playbackTick t s).1.hitNotes := by
        rw [playbackTick_hitNotes_mem]
        rintro (h | ⟨n', hg', -, hlate⟩)
        · exact hhit h
        · rw [hg] at hg'
          obtain rfl : n' = n := (Option.some.inj hg').symm
          exact not_missed_of_window hwin hlate
      simp [isCandidate, hgq, hpitch, hnres]
  have hsorted : List.Sorted (· < ·) (candidateList m (playbackTick t s).1) :=
    (playbackTick_activeNotes_sorted s t).filter _
  have hmin : ∀ i r, candidateList m (playbackTick t s).1 = i :: r →
      ∀ j ∈ candidateList m (playbackTick t s).1, i ≤ j := by
    intro i r hc j hj
    rw [hc] at hj hsorted
    rcases List.mem_cons.mp hj with rfl | hj
    · exact le_refl j
    · exact le_of_lt ((List.sorted_cons.mp hsorted).1 j hj)
  refine ⟨hmemchar, ?_, ?_, ?_⟩
  · intro hnil
    exact matchLoop_eq_nil m (playbackTick t s).1.notes
      (playbackTick t s).1.activeNotes (playbackTick t s).1 hnil
  · intro i r hc
    exact ⟨matchLoop_eq_cons m (playbackTick t s).1.notes
      (playbackTick t s).1.activeNotes (playbackTick t s).1 i r hc,
      hmin i r hc⟩
  · intro hsort i r hc j hj
    have hij : i ≤ j := hmin i r hc j hj
    obtain ⟨ni, hgi, -, -, -⟩ := (hmemchar i).mp (hc ▸ List.mem_cons_self i r)
    obtain ⟨nj, hgj, -, -, -⟩ := (hmemchar j).mp hj
    have hilt : i < s.notes.length := by
      by_contra hge
      rw [List.getElem?_eq_none (Nat.le_of_not_lt hge)] at hgi
      exact Option.noConfusion hgi
    have hjlt : j < s.notes.length := by
      by_contra hge
      rw [List.getElem?_eq_none (Nat.le_of_not_lt hge)] at hgj
      exact Option.noConfusion hgj
    have hgdi : s.notes.getD i default = s.notes.get ⟨i, hilt⟩ := by
      simp [List.getElem?_eq_getElem hilt]
    have hgdj : s.notes.getD j default = s.notes.get ⟨j, hjlt⟩ := by
      simp [List.getElem?_eq_getElem hjlt]
    rw [hgdi, hgdj]
    rcases Nat.lt_or_ge i j with hlt | hge
    · exact hsort.rel_get_of_lt hlt
    · obtain rfl : i = j := Nat.le_antisymm hij hge
      exact le_refl _

/-- C1 witness: with notes 60 at onset 1.0 and 64 at onset 1.2 loaded, a
pitch sample quantized to 60 at time 1.0 has exactly note 0 as candidate
(note 1 is active but 4 semitones away), and that first candidate is
minimal among the candidates. -/
theorem pitch_sample_resolves_first_candidate_witness :
    candidateList 60 (playbackTick 1 (loadSong "song-1"
      [⟨60, 1, 1⟩, ⟨64, 6/5, 1⟩] initialState)).1 = [0] ∧
    ∀ j ∈ candidateList 60 (playbackTick 1 (loadSong "song-1"
      [⟨60, 1, 1⟩, ⟨64, 6/5, 1⟩] initialState)).1, 0 ≤ j := by
  have hc : candidateList 60 (playbackTick 1 (loadSong "song-1"
      [⟨60, 1, 1⟩, ⟨64, 6/5, 1⟩] initialState)).1 = [0] := by
    norm_num [candidateList, isCandidate, playbackTick, updateActiveNotes,
      updateLoop, loadSong, initialState, processNoteMiss, HIT_WINDOW,
      PITCH_TOLERANCE, List.enum, List.enumFrom, abs_le]
  exact ⟨hc, ((pitch_sample_resolves_first_candidate
    (loadSong "song-1" [⟨60, 1, 1⟩, ⟨64, 6/5, 1⟩] initialState)
    1 60).2.2.1 0 [] hc).2⟩

/-! ## Claim about hit accuracies and the running average (C10) -/

/-- The accuracy bookkeeping invariant maintained by the engine: the
running average is 0 before any hit and equals
`totalAccuracy / totalNotesHit` afterwards, with the accumulated accuracy
between half the hit count and the hit count. -/
def AccInv (s : EngineState) : Prop :=
  (s.totalNotesHit = 0 → s.accuracy = 0) ∧
  (s.totalNotesHit : ℚ) / 2 ≤ s.totalAccuracy ∧
  s.totalAccuracy ≤ (s.totalNotesHit : ℚ) ∧
  (0 < s.totalNotesHit → s.accuracy = s.totalAccuracy / (s.totalNotesHit : ℚ))

/-- Loading a song establishes the accuracy invariant. -/
lemma AccInv_loadSong (songId : String) (ns : List MIDINote)
    (s : EngineState) : AccInv (loadSong songId ns s) := by
  refine ⟨fun _ => rfl, ?_, ?_, fun hpos => absurd hpos (by simp [loadSong])⟩ <;>
    simp [loadSong]

/-- Processing a hit whose accuracy is 1 or 1/2 preserves the accuracy
invariant. -/
lemma AccInv_processNoteHit {a : ℚ} (ha : a = 1 ∨ a = 1/2) {s : EngineState}
    (h : AccInv s) : AccInv (processNoteHit a s) := by
  obtain ⟨h0, hlo, hhi, hacc⟩ := h
  have ha' : 1/2 ≤ a ∧ a ≤ 1 := by rcases ha with rfl | rfl <;> norm_num
  refine ⟨?_, ?_, ?_, ?_⟩
  · intro hz
    exact absurd hz (by simp [processNoteHit])
  · show ((s.totalNotesHit + 1 : ℕ) : ℚ) / 2 ≤ s.totalAccuracy + a
    push_cast
    linarith [ha'.1]
  · show s.totalAccuracy + a ≤ ((s.totalNotesHit + 1 : ℕ) : ℚ)
    push_cast
    linarith [ha'.2]
  · intro _
    show (s.totalAccuracy + a) / ((s.totalNotesHit : ℚ) + 1) =
      (s.totalAccuracy + a) / (((s.totalNotesHit + 1 : ℕ)) : ℚ)
    push_cast
    ring

/-- Each operation preserves the accuracy invariant, and every hit event
it emits carries accuracy exactly 1 or exactly 1/2 (the expected pitch and
the quantized note are integers and the tolerance is one semitone). -/
lemma stepOp_AccInv (s : EngineState) (op : Op) (h : AccInv s) :
    AccInv (stepOp s op).1 ∧
    ∀ e ∈ (stepOp s op).2, ∀ j a, e = NoteEvent.hit j a →
      a = 1 ∨ a = 1/2 := by
  cases op with
  | update t =>
    have hnd : ((s.notes.enum).map Prod.fst).Nodup := by
      simp [List.nodup_range]
    have hev := updateLoop_events t s.notes.enum
      { { s with currentTime := t } with activeNotes := [] } hnd
    have hf := updateLoop_fields t s.notes.enum
      { { s with currentTime := t } with activeNotes := [] }
    constructor
    · obtain ⟨h0, hlo, hhi, hacc⟩ := h
      have e1 : (stepOp s (Op.update t)).1.accuracy = s.accuracy := hf.2.2.1
      have e2 : (stepOp s (Op.update t)).1.totalNotesHit = s.totalNotesHit :=
        hf.2.2.2.1
      have e3 : (stepOp s (Op.update t)).1.totalAccuracy = s.totalAccuracy :=
        hf.2.2.2.2.1
      exact ⟨fun hz => e1 ▸ h0 (e2 ▸ hz), by rw [e2, e3]; exact hlo,
        by rw [e2, e3]; exact hhi, fun hpos => by
          rw [e1, e2, e3]; exact hacc (e2 ▸ hpos)⟩
    · intro e he j a hea
      have he' : e ∈ (s.notes.enum.filter
          (isMissedPair s.hitNotes t)).map fun p => NoteEvent.miss p.1 := by
        rw [← hev]; exact he
      obtain ⟨p, -, rfl⟩ := List.mem_map.mp he'
      exact absurd hea (by simp)
  | pitch m =>
    cases hf : s.activeNotes.filter (isCandidate m s.notes s.hitNotes) with
    | nil =>
      have heq : stepOp s (Op.pitch m) = (s, []) :=
        matchLoop_eq_nil m s.notes s.activeNotes s hf
      rw [heq]
      exact ⟨h, by simp⟩
    | cons j r =>
      have heq : stepOp s (Op.pitch m) = _ :=
        matchLoop_eq_cons m s.notes s.activeNotes s j r hf
      have hjc : j ∈ s.activeNotes.filter
          (isCandidate m s.notes s.hitNotes) := by
        rw [hf]; exact List.mem_cons_self _ _
      have hjtol : |(s.notes.getD j default).pitch - m| ≤ PITCH_TOLERANCE := by
        have h2 := (List.mem_filter.mp hjc).2
        exact (by simpa [isCandidate] using h2 : _ ∧ j ∉ s.hitNotes).1
      have hd01 : |(s.notes.getD j default).pitch - m| = 0 ∨
          |(s.notes.getD j default).pitch - m| = 1 := by
        have hd0 : 0 ≤ |(s.notes.getD j default).pitch - m| := abs_nonneg _
        have hd1 : |(s.notes.getD j default).pitch - m| ≤ 1 := by
          simpa [PITCH_TOLERANCE] using hjtol
        omega
      have haval : (1 - ((|(s.notes.getD j default).pitch - m| : ℤ) : ℚ) /
          (MAX_PITCH_DIFF : ℚ)) = 1 ∨
          (1 - ((|(s.notes.getD j default).pitch - m| : ℤ) : ℚ) /
          (MAX_PITCH_DIFF : ℚ)) = 1/2 := by
        rcases hd01 with hd | hd
        · left
          rw [hd]
          norm_num
        · right
          rw [hd]
          norm_num [MAX_PITCH_DIFF, PITCH_TOLERANCE]
      constructor
      · rw [heq]
        exact AccInv_processNoteHit haval h
      · rw [heq]
        intro e he j' a hea
        have he' : e = NoteEvent.hit j
            (1 - ((|(s.notes.getD j default).pitch - m| : ℤ) : ℚ) /
              (MAX_PITCH_DIFF : ℚ)) := by simpa using he
        rw [he'] at hea
        have hval : (1 - ((|(s.notes.getD j default).pitch - m| : ℤ) : ℚ) /
            (MAX_PITCH_DIFF : ℚ)) = a := by
          injection hea with h1 h2
        rw [← hval]
        exact haval

/-- The accuracy invariant holds along any run, and every hit event of the
run has accuracy 1 or 1/2. -/
lemma run_AccInv : ∀ (ops : List Op) (s : EngineState), AccInv s →
    AccInv (run s ops).1 ∧
    ∀ e ∈ (run s ops).2, ∀ j a, e = NoteEvent.hit j a →
      a = 1 ∨ a = 1/2 := by
  intro ops
  induction ops with
  | nil => intro s h; exact ⟨h, by simp [run]⟩
  | cons op rest ih =>
    intro s h
    obtain ⟨h1, h2⟩ := stepOp_AccInv s op h
    obtain ⟨h3, h4⟩ := ih (stepOp s op).1 h1
    refine ⟨h3, ?_⟩
    intro e he j a hea
    have hsplit : (run s (op :: rest)).2 =
        (stepOp s op).2 ++ (run (stepOp s op).1 rest).2 := rfl
    rw [hsplit] at he
    rcases List.mem_append.mp he with h' | h'
    · exact h2 e h' j a hea
    · exact h4 e h' j a hea

/-- C10: from a freshly loaded song, every recorded hit has accuracy
exactly 1 (pitch difference 0) or exactly 1/2 (pitch difference 1); the
running average accuracy is 0 before any hit and lies in [1/2, 1] once at
least one hit has been recorded, so it never takes a value in
(0, 1/2). -/
theorem hit_accuracy_half_or_one (songId : String) (ns : List MIDINote)
    (s0 : EngineState) (ops : List Op) :
    (∀ e ∈ (run (loadSong songId ns s0) ops).2, ∀ j a,
      e = NoteEvent.hit j a → a = 1 ∨ a = 1/2) ∧
    ((run (loadSong songId ns s0) ops).1.totalNotesHit = 0 →
      (run (loadSong songId ns s0) ops).1.accuracy = 0) ∧
    (0 < (run (loadSong songId ns s0) ops).1.totalNotesHit →
      1/2 ≤ (run (loadSong songId ns s0) ops).1.accuracy ∧
      (run (loadSong songId ns s0) ops).1.accuracy ≤ 1) ∧
    ¬ (0 < (run (loadSong songId ns s0) ops).1.accuracy ∧
      (run (loadSong songId ns s0) ops).1.accuracy < 1/2) := by
  obtain ⟨hinv, hev⟩ :=
    run_AccInv ops (loadSong songId ns s0) (AccInv_loadSong songId ns s0)
  obtain ⟨h0, hlo, hhi, hacc⟩ := hinv
  have hbounds : 0 < (run (loadSong songId ns s0) ops).1.totalNotesHit →
      1/2 ≤ (run (loadSong songId ns s0) ops).1.accuracy ∧
      (run (loadSong songId ns s0) ops).1.accuracy ≤ 1 := by
    intro hpos
    have hq : (0 : ℚ) <
        ((run (loadSong songId ns s0) ops).1.totalNotesHit : ℚ) := by
      exact_mod_cast hpos
    rw [hacc hpos]
    constructor
    · rw [le_div_iff₀ hq]
      nlinarith [hlo]
    · rw [div_le_one hq]
      exact hhi
  refine ⟨hev, h0, hbounds, ?_⟩
  rintro ⟨hpos, hlt⟩
  rcases Nat.eq_zero_or_pos
      (run (loadSong songId ns s0) ops).1.totalNotesHit with hz | hz
  · rw [h0 hz] at hpos
    exact lt_irrefl 0 hpos
  · exact absurd hlt (not_lt.mpr (hbounds hz).1)

/-- C10 witness: one note at onset 1, one playback tick at time 1 and one
pitch sample at the exact pitch: one hit is recorded and the running
average lies in [1/2, 1] (it is in fact 1). -/
theorem hit_accuracy_half_or_one_witness :
    (1/2 ≤ (run (loadSong "song-1" [⟨60, 1, 1⟩] initialState)
        [Op.update 1, Op.pitch 60]).1.accuracy ∧
      (run (loadSong "song-1" [⟨60, 1, 1⟩] initialState)
        [Op.update 1, Op.pitch 60]).1.accuracy ≤ 1) ∧
    (run (loadSong "song-1" [⟨60, 1, 1⟩] initialState)
        [Op.update 1, Op.pitch 60]).1.accuracy = 1 := by
  constructor
  · refine (hit_accuracy_half_or_one "song-1" [⟨60, 1, 1⟩] initialState
      [Op.update 1, Op.pitch 60]).2.2.1 ?_
    norm_num [run, stepOp, playbackTick, updateActiveNotes, updateLoop,
      checkPitchMatch, matchLoop, processNoteHit, processNoteMiss, loadSong,
      initialState, HIT_WINDOW, PITCH_TOLERANCE, List.enum, List.enumFrom,
      abs_le]
  · norm_num [run, stepOp, playbackTick, updateActiveNotes, updateLoop,
      checkPitchMatch, matchLoop, processNoteHit, processNoteMiss, loadSong,
      initialState, HIT_WINDOW, PITCH_TOLERANCE, MAX_PITCH_DIFF,
      List.enum, List.enumFrom, abs_le]

end VocalGame
